import Mathlib

/-!
Verification of the fixed-width-file (FWF) reader of nsaph-utils
(src/nsaph_utils/utils/fwf.py), shallowly embedded in Lean.

Modelling conventions:
* bytes are `Nat` (0..255), file contents and buffers are `List Nat`;
* Python byte-string slicing `data[a:b]` (which clamps out-of-range
  indices) is `pySlice`;
* `bytes.decode("utf-8")` is modelled as the byte-to-character map
  `decodeBytes`; the claims under verification only exercise
  single-byte characters;
* the external `dateutil.parser.parse` library call is modelled as an
  uninterpreted partial function `dp : String → Option Int` (a `none`
  result models the library raising an exception), passed as an
  explicit argument to every definition that needs it;
* a Python exception escaping a method is an `Except` error value (for
  `FTSParseException`, carrying its `pos` payload) or an `ioErr`
  outcome (for `ValueError` / `AttributeError` / `TypeError` raised by
  reading a closed or absent file handle);
* `self.nr = len(self.data) / rlen` (Python 3 true division producing
  a float) is modelled as the exact rational `nr : ℚ`, and the guard
  `self.b >= self.nr` as the corresponding rational comparison.
-/

namespace Fwf

/-- Python str.strip removes these whitespace characters (space, tab,
LF, VT, FF, CR) from both ends. -/
def isSpaceB (c : Char) : Bool :=
  [9, 10, 11, 12, 13, 32].contains c.toNat

/-- Python str.strip. -/
def pyStrip (s : String) : String :=
  String.mk (((s.toList.dropWhile isSpaceB).reverse.dropWhile isSpaceB).reverse)

def pyIntDigits (cs : List Char) : Option Nat :=
  if cs = [] then none
  else if cs.all (fun c => c.isDigit) then
    some (cs.foldl (fun a c => a * 10 + (c.toNat - 48)) 0)
  else none

/-- Python int(s) on an already-stripped string: optional sign followed
by decimal digits; `none` models a ValueError. -/
def pyInt (s : String) : Option Int :=
  match s.toList with
  | '+' :: rest => (pyIntDigits rest).map Int.ofNat
  | '-' :: rest => (pyIntDigits rest).map (fun n => -(n : Int))
  | cs => (pyIntDigits cs).map Int.ofNat

/-- Python slice data[a:b] on a byte string: clamps both bounds. -/
def pySlice (l : List Nat) (a b : Nat) : List Nat :=
  (l.take b).drop a

/-- bytes.decode, restricted to one byte per character. -/
def decodeBytes (bs : List Nat) : String :=
  String.mk (bs.map Char.ofNat)

/-- A decoded field value: int, parsed date (abstract), string, or
Python None. -/
inductive Value where
  | vInt : Int → Value
  | vDate : Int → Value
  | vStr : String → Value
  | vNull : Value
deriving DecidableEq, Repr

/-- FWFColumn: name, type ("NUM" / "CHAR" / "DATE"), ordinal, start
offset, byte length, decimal scale d. -/
structure FWFColumn where
  name : String
  type : String
  ord : Nat
  start : Nat
  length : Nat
  d : Nat
deriving DecidableEq, Repr

/-- The derived attribute self.end = self.start + self.length. -/
def FWFColumn.stop (c : FWFColumn) : Nat :=
  c.start + c.length

/-- FWFMeta, restricted to the attributes the reader logic uses:
record length rlen and the ordered column list.  The path, expected
row count and expected size only feed a non-fatal size warning. -/
structure FWFMeta where
  rlen : Nat
  columns : List FWFColumn
deriving DecidableEq, Repr

def FWFMeta.ncol (m : FWFMeta) : Nat :=
  m.columns.length

/-- The per-field type coercion inside the try block of read_record:
NUM with zero scale strips and parses an int (empty gives None);
DATE strips and calls the date parser (empty gives None); everything
else keeps the raw decoded string.  A `none` result models the try
block raising. -/
def coerce (dp : String → Option Int) (c : FWFColumn) (s : String) : Option Value :=
  if c.type = "NUM" ∧ c.d = 0 then
    let val := pyStrip s
    if val = "" then some Value.vNull
    else (pyInt val).map Value.vInt
  else if c.type = "DATE" then
    let v := pyStrip s
    if v = "" then some Value.vNull
    else (dp v).map Value.vDate
  else some (Value.vStr s)

/-- The decoded text of one column sliced out of a record block. -/
def fieldStr (data : List Nat) (c : FWFColumn) : String :=
  decodeBytes (pySlice data c.start c.stop)

/-- Whether the coercion of column c fails on record block data. -/
def failP (dp : String → Option Int) (data : List Nat) (c : FWFColumn) : Bool :=
  (coerce dp c (fieldStr data c)).isNone

/-- The value the source appends for column c: the coerced value, or
the raw decoded string when the coercion raised. -/
def fallbackVal (dp : String → Option Int) (data : List Nat) (c : FWFColumn) : Value :=
  match coerce dp c (fieldStr data c) with
  | some v => v
  | none => Value.vStr (fieldStr data c)

/-- The field loop of read_record: threads exception_count, appends the
raw string on a failure, and raises FTSParseException (error carrying
column.start) once exception_count exceeds 3. -/
def recLoop (dp : String → Option Int) (data : List Nat) :
    List FWFColumn → Nat → Except Nat (List Value × Nat)
  | [], exc => Except.ok ([], exc)
  | c :: cs, exc =>
    let s := decodeBytes (pySlice data c.start c.stop)
    match coerce dp c s with
    | some v => (recLoop dp data cs exc).map (fun p => (v :: p.1, p.2))
    | none =>
      if exc + 1 > 3 then Except.error c.start
      else (recLoop dp data cs (exc + 1)).map (fun p => (Value.vStr s :: p.1, p.2))

/-- Terminator byte test: LF (10) or CR (13). -/
def isTerm (b : Nat) : Bool :=
  b == 10 || b == 13

/-- The while loop of read_record that advances i1 past contiguous
CR/LF bytes inside the buffer, with an explicit bound on the remaining
iterations (the loop advances through the buffer, so buf.length - i
iterations always suffice). -/
def skipGo (buf : List Nat) : Nat → Nat → Nat
  | 0, i => i
  | fuel + 1, i =>
    if h : i < buf.length then
      if isTerm (buf.get ⟨i, h⟩) then skipGo buf fuel (i + 1) else i
    else i

/-- The while loop of read_record that advances i1 past contiguous
CR/LF bytes inside the buffer. -/
def skipCRLF (buf : List Nat) (i : Nat) : Nat :=
  skipGo buf (buf.length - i) i

/-- Length of the leading run of CR/LF bytes of a byte list. -/
def termRun (l : List Nat) : Nat :=
  (l.takeWhile isTerm).length

/-- read_record on an explicit buffer and scan position: slices the
rlen-byte record block, advances the position past the block and any
following CR/LF bytes, and runs the field loop.  Returns the parse
outcome and the new scan position. -/
def readRecordCore (dp : String → Option Int) (meta : FWFMeta)
    (buf : List Nat) (pos : Nat) : Except Nat (List Value × Nat) × Nat :=
  let i1 := pos + meta.rlen
  let data := pySlice buf pos i1
  (recLoop dp data meta.columns 0, skipCRLF buf i1)

/-- A binary-mode file handle: contents, current offset, closed flag. -/
structure Handle where
  bytes : List Nat
  pos : Nat
  closed : Bool
deriving DecidableEq, Repr

/-- f.read(n): returns up to n bytes and advances; `none` models the
ValueError raised on a closed file. -/
def Handle.readB (h : Handle) (n : Nat) : Option (List Nat × Handle) :=
  if h.closed then none
  else
    let bs := (h.bytes.drop h.pos).take n
    some (bs, { h with pos := h.pos + bs.length })

/-- The state of FWFReader.  nr is the float len(self.data)/rlen of the
source, kept as an exact rational. -/
structure FWFReader where
  metadata : FWFMeta
  input : Option Handle
  rdict : Bool
  line : Nat
  data : Option (List Nat)
  good_lines : Nat
  bad_lines : Nat
  nb : Nat
  nr : ℚ
  b : Nat
  record_start_pos : Nat
  eof_len : Option Nat
deriving DecidableEq

/-- The FWFReader constructor. -/
def mkReader (meta : FWFMeta) (ret_dict : Bool) : FWFReader :=
  { metadata := meta
    input := none
    rdict := ret_dict
    line := 0
    data := none
    good_lines := 0
    bad_lines := 0
    nb := 1000
    nr := 0
    b := 0
    record_start_pos := 0
    eof_len := none }

/-- The loop of the terminator sniff, with an explicit bound on the
remaining iterations: count bytes while each one-byte read is CR/LF;
a read at end of file gives `none` (the IndexError of f.read(1)[0]).
Exhausted fuel coincides with the end-of-file case, since the loop
advances one byte per iteration. -/
def sniffGo (bytes : List Nat) : Nat → Nat → Option Nat
  | 0, _ => none
  | fuel + 1, pos =>
    if h : pos < bytes.length then
      if isTerm (bytes.get ⟨pos, h⟩) then (sniffGo bytes fuel (pos + 1)).map (· + 1)
      else some 0
    else none

/-- The terminator sniff of open: after the initial f.read(rlen) the
handle sits at pos; count bytes while each one-byte read is CR/LF.
`none` models the IndexError of f.read(1)[0] at end of file. -/
def sniffLen (bytes : List Nat) (pos : Nat) : Option Nat :=
  sniffGo bytes (bytes.length - pos) pos

/-- FWFReader.open.  fs is the content of the file at metadata.path.
Returns immediately when the handle is already set; sniffs the
terminator width only when eof_len is still unknown; `none` models the
IndexError escaping from the sniff. -/
def FWFReader.openR (r : FWFReader) (fs : List Nat) : Option FWFReader :=
  if r.input.isSome then some r
  else
    match r.eof_len with
    | some _ => some { r with input := some ⟨fs, 0, false⟩ }
    | none =>
      match sniffLen fs (min r.metadata.rlen fs.length) with
      | some k => some { r with eof_len := some k, input := some ⟨fs, 0, false⟩ }
      | none => none

/-- FWFReader.close: closes the handle if one is set.  The input
attribute itself is left in place. -/
def FWFReader.closeR (r : FWFReader) : FWFReader :=
  match r.input with
  | none => r
  | some h => { r with input := some { h with closed := true } }

/-- FWFReader.__exit__: calls close unconditionally, whatever the
exception information is. -/
def FWFReader.exitR (r : FWFReader) (_exc_type _exc_val _exc_tb : Option String) : FWFReader :=
  r.closeR

/-- The value FWFReader.next gives back to the caller: StopIteration,
an I/O or attribute error escaping, the Python None returned for a bad
record, or a decoded row (list or dict shaped). -/
inductive NextOut where
  | stop
  | ioErr
  | skipped
  | row : List Value → NextOut
  | drow : List (String × Value) → NextOut
deriving DecidableEq, Repr

/-- The refill guard of next: self.data is None or self.b >= self.nr. -/
def needsRefill (r : FWFReader) : Bool :=
  r.data.isNone || decide (r.nr ≤ (r.b : ℚ))

/-- The body of next after the buffer is in place: increments line and
b, runs read_record (which advances record_start_pos in both outcomes),
then either counts a good line and shapes the row, or counts a bad
line and returns None. -/
def processRecord (dp : String → Option Int) (r : FWFReader) (buf : List Nat) :
    NextOut × FWFReader :=
  match (readRecordCore dp r.metadata buf r.record_start_pos).1 with
  | Except.ok p =>
    ((if r.rdict then
        NextOut.drow ((r.metadata.columns.map (fun c => c.name)).zip p.1)
      else NextOut.row p.1),
     { r with line := r.line + 1, b := r.b + 1,
              record_start_pos := (readRecordCore dp r.metadata buf r.record_start_pos).2,
              good_lines := r.good_lines + 1 })
  | Except.error _ =>
    (NextOut.skipped,
     { r with line := r.line + 1, b := r.b + 1,
              record_start_pos := (readRecordCore dp r.metadata buf r.record_start_pos).2,
              bad_lines := r.bad_lines + 1 })

/-- FWFReader.next.  On refill it reads (rlen + eof_len) * nb bytes:
zero bytes read raises StopIteration (stop), with the counters
untouched; a closed or missing handle, or a still-unknown eof_len,
raises (ioErr).  Otherwise one record is processed from the buffer. -/
def FWFReader.next (dp : String → Option Int) (r : FWFReader) : NextOut × FWFReader :=
  if needsRefill r then
    match r.input, r.eof_len with
    | some h, some t =>
      match h.readB ((r.metadata.rlen + t) * r.nb) with
      | some bh =>
        if bh.1.length = 0 then
          (NextOut.stop, { r with input := some bh.2, data := some bh.1 })
        else
          processRecord dp
            { r with input := some bh.2, data := some bh.1,
                     nr := mkRat bh.1.length (r.metadata.rlen + t),
                     b := 0, record_start_pos := 0 } bh.1
      | none => (NextOut.ioErr, r)
    | _, _ => (NextOut.ioErr, r)
  else
    match r.data with
    | some buf => processRecord dp r buf
    | none => (NextOut.ioErr, r)

/-- FWFReader.read_record as a state transformer: the field-loop
outcome plus the state with the advanced scan position.  next only
calls it with the buffer in place; the none case is the unreachable
TypeError of slicing a missing buffer. -/
def FWFReader.read_record (dp : String → Option Int) (r : FWFReader) :
    Except Nat (List Value × Nat) × FWFReader :=
  match r.data with
  | some buf =>
    let res := readRecordCore dp r.metadata buf r.record_start_pos
    (res.1, { r with record_start_pos := res.2 })
  | none => (Except.error 0, r)

/-- The bytes a refill attempt of next would read, with the handle it
leaves behind; `none` when the read itself would raise. -/
def refillRead (r : FWFReader) : Option (List Nat × Handle) :=
  match r.input, r.eof_len with
  | some h, some t => h.readB ((r.metadata.rlen + t) * r.nb)
  | _, _ => none

/-- Repeated next calls with fuel: collects the outcomes up to and
including the first stop, and the final reader state. -/
def runS (dp : String → Option Int) : Nat → FWFReader → List NextOut × FWFReader
  | 0, r => ([], r)
  | n + 1, r =>
    let p := r.next dp
    match p.1 with
    | NextOut.stop => ([NextOut.stop], p.2)
    | o => ((o :: (runS dp n p.2).1), (runS dp n p.2).2)

/-- The outcome sequence of repeated next calls. -/
def runN (dp : String → Option Int) (n : Nat) (r : FWFReader) : List NextOut :=
  (runS dp n r).1

/-- Construct a fresh reader, open it on file content fs, and run it:
the outcome sequence plus the final good and bad line counters. -/
def fullRun (dp : String → Option Int) (m : FWFMeta) (rd : Bool)
    (fs : List Nat) (fuel : Nat) : Option (List NextOut × Nat × Nat) :=
  ((mkReader m rd).openR fs).map
    (fun r0 => ((runS dp fuel r0).1, (runS dp fuel r0).2.good_lines, (runS dp fuel r0).2.bad_lines))

/-- A well-formed record of a fixed-width file: an rlen-byte block
whose first byte is not CR/LF, followed by exactly t terminator bytes,
each CR or LF. -/
def recordOK (rlen t : Nat) (rec : List Nat) : Bool :=
  rec.length == rlen + t &&
  (rec.drop rlen).all isTerm &&
  (rec.take 1).all (fun b => !(isTerm b))

/-- The record block data = self.data[self.record_start_pos:i1] that
read_record slices for the current record. -/
def recSlice (r : FWFReader) (buf : List Nat) : List Nat :=
  pySlice buf r.record_start_pos (r.record_start_pos + r.metadata.rlen)

/-- The date parser instance used by concrete witnesses: a parser that
rejects every string. -/
def dp0 : String → Option Int := fun _ => none

/-- Witness state for C1: a two-record file with rlen = 2 and a
one-byte LF terminator, buffered and positioned at the first record. -/
def rC1 : FWFReader :=
  { metadata := ⟨2, [⟨"f", "CHAR", 0, 0, 2, 0⟩]⟩
    input := none
    rdict := false
    line := 0
    data := some (List.flatten [[97, 98, 10], [99, 100, 10]])
    good_lines := 0
    bad_lines := 0
    nb := 1000
    nr := 2
    b := 0
    record_start_pos := 0
    eof_len := some 1 }

/-- Layout for the C2 failing input: one CHAR column covering a
4-byte record. -/
def metaC2 : FWFMeta :=
  ⟨4, [⟨"f", "CHAR", 0, 0, 4, 0⟩]⟩

/-- The C2 failing input: bytes of abcd, LF, efg.  One complete
record of span 4 + 1, then a 3-byte partial trailing record. -/
def fileC2 : List Nat :=
  [97, 98, 99, 100, 10, 101, 102, 103]

/-- Four one-byte NUM columns over a 4-byte record; every field holds
the letter x, so all four integer parses fail. -/
def colsC3 : List FWFColumn :=
  [⟨"a", "NUM", 0, 0, 1, 0⟩, ⟨"b", "NUM", 1, 1, 1, 0⟩,
   ⟨"c", "NUM", 2, 2, 1, 0⟩, ⟨"dcol", "NUM", 3, 3, 1, 0⟩]

/-- Witness state for C3: a buffered record of four x bytes under
colsC3, with no refill due. -/
def rC3 : FWFReader :=
  { metadata := ⟨4, colsC3⟩
    input := none
    rdict := false
    line := 0
    data := some [120, 120, 120, 120]
    good_lines := 0
    bad_lines := 0
    nb := 1000
    nr := 2
    b := 0
    record_start_pos := 0
    eof_len := some 0 }

/-- Two one-byte NUM columns over a 2-byte record; the first field is
the letter x (parse fails), the second the digit 7 (parse succeeds). -/
def colsC4 : List FWFColumn :=
  [⟨"a", "NUM", 0, 0, 1, 0⟩, ⟨"b", "NUM", 1, 1, 1, 0⟩]

/-- Witness state for C4: a buffered record of bytes x 7 under colsC4,
with no refill due. -/
def rC4 : FWFReader :=
  { metadata := ⟨2, colsC4⟩
    input := none
    rdict := false
    line := 0
    data := some [120, 55]
    good_lines := 0
    bad_lines := 0
    nb := 1000
    nr := 2
    b := 0
    record_start_pos := 0
    eof_len := some 0 }

/-- A CHAR column used for the C5 analysis. -/
def colChar : FWFColumn :=
  ⟨"s", "CHAR", 0, 0, 1, 0⟩

/-- A zero-scale NUM column used for the C5 witness. -/
def colNum : FWFColumn :=
  ⟨"n", "NUM", 0, 0, 1, 0⟩

/-- A DATE column used for the C5 witness. -/
def colDate : FWFColumn :=
  ⟨"dt", "DATE", 0, 0, 1, 0⟩

/-- Witness state for C7 and C8: an open reader over an empty file,
about to refill. -/
def rC7 : FWFReader :=
  { metadata := ⟨4, [⟨"f", "CHAR", 0, 0, 4, 0⟩]⟩
    input := some ⟨[], 0, false⟩
    rdict := false
    line := 5
    data := none
    good_lines := 2
    bad_lines := 1
    nb := 1000
    nr := 0
    b := 0
    record_start_pos := 0
    eof_len := some 1 }

/-- Witness state for C8 and C10: an open reader with a known
terminator width. -/
def rC8 : FWFReader :=
  { metadata := ⟨4, [⟨"f", "CHAR", 0, 0, 4, 0⟩]⟩
    input := some ⟨[97, 98, 99, 100, 10], 5, false⟩
    rdict := false
    line := 1
    data := some [97, 98, 99, 100, 10]
    good_lines := 1
    bad_lines := 0
    nb := 1000
    nr := 1
    b := 1
    record_start_pos := 5
    eof_len := some 1 }

lemma recordOK_spec {rlen t : Nat} {rec : List Nat} (h : recordOK rlen t rec = true) :
    rec.length = rlen + t ∧ (∀ b ∈ rec.drop rlen, isTerm b = true) ∧
      (∀ b ∈ rec.take 1, isTerm b = false) := by
  simp only [recordOK, Bool.and_eq_true, beq_iff_eq, List.all_eq_true,
    Bool.not_eq_true'] at h
  exact ⟨h.1.1, h.1.2, h.2⟩

lemma termRun_nil : termRun [] = 0 := rfl

lemma termRun_cons_neg {b : Nat} {l : List Nat} (hb : isTerm b = false) :
    termRun (b :: l) = 0 := by
  simp [termRun, List.takeWhile_cons, hb]

lemma termRun_cons_pos {b : Nat} {l : List Nat} (hb : isTerm b = true) :
    termRun (b :: l) = termRun l + 1 := by
  simp [termRun, List.takeWhile_cons, hb]

lemma termRun_append_all {l₁ l₂ : List Nat} (h : ∀ x ∈ l₁, isTerm x = true) :
    termRun (l₁ ++ l₂) = l₁.length + termRun l₂ := by
  induction l₁ with
  | nil => simp [termRun]
  | cons x xs ih =>
    have hx : isTerm x = true := h x (List.mem_cons_self x xs)
    have ihs := ih (fun y hy => h y (List.mem_cons_of_mem x hy))
    simp only [List.cons_append, termRun_cons_pos hx, ihs, List.length_cons]
    omega

lemma skipGo_eq (buf : List Nat) :
    ∀ (fuel i : Nat), buf.length - i ≤ fuel →
      skipGo buf fuel i = i + termRun (buf.drop i) := by
  intro fuel
  induction fuel with
  | zero =>
    intro i hle
    have hlen : buf.length ≤ i := by omega
    simp [skipGo, List.drop_eq_nil_of_le hlen, termRun]
  | succ f ih =>
    intro i hle
    by_cases h : i < buf.length
    · have hcons : buf.drop i = buf.get ⟨i, h⟩ :: buf.drop (i + 1) :=
        List.drop_eq_getElem_cons h
      rw [hcons]
      by_cases ht : isTerm (buf.get ⟨i, h⟩) = true
      · rw [termRun_cons_pos ht, show skipGo buf (f + 1) i =
          (if h : i < buf.length then
            (if isTerm (buf.get ⟨i, h⟩) then skipGo buf f (i + 1) else i)
           else i) from rfl, dif_pos h, if_pos ht, ih (i + 1) (by omega)]
        omega
      · have ht2 : isTerm (buf.get ⟨i, h⟩) = false := by
          simpa using ht
        rw [termRun_cons_neg ht2, show skipGo buf (f + 1) i =
          (if h : i < buf.length then
            (if isTerm (buf.get ⟨i, h⟩) then skipGo buf f (i + 1) else i)
           else i) from rfl, dif_pos h, if_neg ht]
        omega
    · have hlen : buf.length ≤ i := by omega
      rw [List.drop_eq_nil_of_le hlen, termRun_nil, show skipGo buf (f + 1) i =
        (if h : i < buf.length then
          (if isTerm (buf.get ⟨i, h⟩) then skipGo buf f (i + 1) else i)
         else i) from rfl, dif_neg h]
      omega

lemma skipCRLF_eq (buf : List Nat) (i : Nat) :
    skipCRLF buf i = i + termRun (buf.drop i) :=
  skipGo_eq buf (buf.length - i) i (Nat.le_refl _)

lemma flatten_length {L : Nat} {recs : List (List Nat)}
    (h : ∀ rec ∈ recs, rec.length = L) :
    recs.flatten.length = recs.length * L := by
  induction recs with
  | nil => simp
  | cons r rs ih =>
    have hr : r.length = L := h r (List.mem_cons_self r rs)
    have ihs := ih (fun x hx => h x (List.mem_cons_of_mem r hx))
    simp [List.flatten_cons, List.length_append, hr, ihs, Nat.succ_mul]
    omega

lemma flatten_drop_mul {L : Nat} :
    ∀ (i : Nat) (recs : List (List Nat)), (∀ rec ∈ recs, rec.length = L) →
      recs.flatten.drop (i * L) = (recs.drop i).flatten := by
  intro i
  induction i with
  | zero => intro recs _; simp
  | succ n ih =>
    intro recs h
    cases recs with
    | nil => simp
    | cons r rs =>
      have hr : r.length = L := h r (List.mem_cons_self r rs)
      have hidx : (n + 1) * L = r.length + n * L := by
        rw [hr, Nat.succ_mul]; omega
      rw [List.flatten_cons, hidx, List.drop_append,
        ih rs (fun x hx => h x (List.mem_cons_of_mem r hx)), List.drop_succ_cons]

lemma wf_advance {rlen t : Nat} (hrl : 0 < rlen) (recs : List (List Nat))
    (hwf : ∀ rec ∈ recs, recordOK rlen t rec = true)
    (i : Nat) (hi : i < recs.length) :
    skipCRLF recs.flatten (i * (rlen + t) + rlen) = (i + 1) * (rlen + t) := by
  have hlen : ∀ rec ∈ recs, rec.length = rlen + t :=
    fun rec h => (recordOK_spec (hwf rec h)).1
  have hdrop1 : recs.flatten.drop (i * (rlen + t) + rlen) =
      ((recs.drop i).flatten).drop rlen := by
    rw [← List.drop_drop, flatten_drop_mul i recs hlen]
  have hcons : recs.drop i = recs.get ⟨i, hi⟩ :: recs.drop (i + 1) :=
    List.drop_eq_getElem_cons hi
  have hmem : recs.get ⟨i, hi⟩ ∈ recs := List.get_mem recs i hi
  have hreclen : (recs.get ⟨i, hi⟩).length = rlen + t := hlen _ hmem
  have hdrop2 : ((recs.drop i).flatten).drop rlen =
      ((recs.get ⟨i, hi⟩).drop rlen) ++ (recs.drop (i + 1)).flatten := by
    rw [hcons, List.flatten_cons, List.drop_append_of_le_length (by omega)]
  have hterm : ∀ x ∈ (recs.get ⟨i, hi⟩).drop rlen, isTerm x = true :=
    (recordOK_spec (hwf _ hmem)).2.1
  have htlen : ((recs.get ⟨i, hi⟩).drop rlen).length = t := by
    rw [List.length_drop, hreclen]; omega
  have hrest : termRun ((recs.drop (i + 1)).flatten) = 0 := by
    cases hr2 : recs.drop (i + 1) with
    | nil => simp [termRun]
    | cons r2 rs2 =>
      have hmem2 : r2 ∈ recs := by
        apply List.drop_subset (i + 1)
        rw [hr2]; exact List.mem_cons_self r2 rs2
      have hlen2 : r2.length = rlen + t := hlen r2 hmem2
      have hfst := (recordOK_spec (hwf r2 hmem2)).2.2
      cases r2 with
      | nil => simp at hlen2; omega
      | cons b2 tl2 =>
        have hb2 : isTerm b2 = false := hfst b2 (by simp)
        rw [List.flatten_cons, List.cons_append]
        exact termRun_cons_neg hb2
  rw [skipCRLF_eq, hdrop1, hdrop2, termRun_append_all hterm, htlen, hrest,
    Nat.succ_mul]
  omega

lemma sniffGo_of_split (l : List Nat) :
    ∀ (fuel pos : Nat) (l₁ : List Nat) (b : Nat) (l₂ : List Nat),
      l.drop pos = l₁ ++ b :: l₂ → (∀ x ∈ l₁, isTerm x = true) →
      isTerm b = false → l.length - pos ≤ fuel →
      sniffGo l fuel pos = some l₁.length := by
  intro fuel
  induction fuel with
  | zero =>
    intro pos l₁ b l₂ hd h₁ hb hle
    exfalso
    have hl := List.length_drop pos l
    rw [hd] at hl
    simp at hl
    omega
  | succ f ih =>
    intro pos l₁ b l₂ hd h₁ hb hle
    have hpos : pos < l.length := by
      have hl := List.length_drop pos l
      rw [hd] at hl
      simp at hl
      omega
    have hcons : l.drop pos = l.get ⟨pos, hpos⟩ :: l.drop (pos + 1) :=
      List.drop_eq_getElem_cons hpos
    rw [show sniffGo l (f + 1) pos =
      (if h : pos < l.length then
        (if isTerm (l.get ⟨pos, h⟩) then (sniffGo l f (pos + 1)).map (· + 1)
         else some 0)
       else none) from rfl, dif_pos hpos]
    cases l₁ with
    | nil =>
      rw [hcons, List.nil_append] at hd
      have hget : l.get ⟨pos, hpos⟩ = b := (List.cons.injEq _ _ _ _ ▸ hd).1
      rw [if_neg (by rw [hget, hb]; simp)]
      rfl
    | cons x xs =>
      rw [hcons, List.cons_append] at hd
      have hget : l.get ⟨pos, hpos⟩ = x := (List.cons.injEq _ _ _ _ ▸ hd).1
      have hdrop : l.drop (pos + 1) = xs ++ b :: l₂ := (List.cons.injEq _ _ _ _ ▸ hd).2
      have hx : isTerm x = true := h₁ x (List.mem_cons_self x xs)
      rw [if_pos (by rw [hget]; exact hx),
        ih (pos + 1) xs b l₂ hdrop (fun y hy => h₁ y (List.mem_cons_of_mem x hy)) hb
          (by omega)]
      simp

lemma sniffLen_of_split (l : List Nat) (pos : Nat) (l₁ : List Nat) (b : Nat)
    (l₂ : List Nat) (hd : l.drop pos = l₁ ++ b :: l₂)
    (h₁ : ∀ x ∈ l₁, isTerm x = true) (hb : isTerm b = false) :
    sniffLen l pos = some l₁.length :=
  sniffGo_of_split l (l.length - pos) pos l₁ b l₂ hd h₁ hb (Nat.le_refl _)

lemma sniffGo_some (l : List Nat) :
    ∀ (fuel pos k : Nat), sniffGo l fuel pos = some k →
      pos < l.length ∧ k = termRun (l.drop pos) := by
  intro fuel
  induction fuel with
  | zero => intro pos k h; exact absurd h (by simp [sniffGo])
  | succ f ih =>
    intro pos k h
    rw [show sniffGo l (f + 1) pos =
      (if h : pos < l.length then
        (if isTerm (l.get ⟨pos, h⟩) then (sniffGo l f (pos + 1)).map (· + 1)
         else some 0)
       else none) from rfl] at h
    by_cases hpos : pos < l.length
    · rw [dif_pos hpos] at h
      refine ⟨hpos, ?_⟩
      have hcons : l.drop pos = l.get ⟨pos, hpos⟩ :: l.drop (pos + 1) :=
        List.drop_eq_getElem_cons hpos
      by_cases ht : isTerm (l.get ⟨pos, hpos⟩) = true
      · rw [if_pos ht] at h
        cases hsg : sniffGo l f (pos + 1) with
        | none => rw [hsg] at h; simp at h
        | some k0 =>
          rw [hsg] at h
          simp at h
          have := (ih (pos + 1) k0 hsg).2
          rw [hcons, termRun_cons_pos ht]
          omega
      · have ht2 : isTerm (l.get ⟨pos, hpos⟩) = false := by simpa using ht
        rw [if_neg ht] at h
        simp at h
        rw [hcons, termRun_cons_neg ht2]
        omega
    · rw [dif_neg hpos] at h
      simp at h

lemma sniffLen_some {l : List Nat} {pos k : Nat} (h : sniffLen l pos = some k) :
    pos < l.length ∧ k = termRun (l.drop pos) :=
  sniffGo_some l (l.length - pos) pos k h

/-- C1: for every record of a well-formed fixed-width file (a
concatenation of records, each an rlen-byte block not starting with
CR/LF followed by exactly t CR/LF terminator bytes), one call to
read_record advances the scan position record_start_pos by exactly
record_length + terminator-width bytes, for every record index
including the last; and on such a file (with at least two records) the
terminator sniff of open auto-detects exactly that width t. -/
theorem C1_read_record_advances (dp : String → Option Int) (r : FWFReader)
    (t : Nat) (recs : List (List Nat)) (i : Nat)
    (hrl : 0 < r.metadata.rlen)
    (hwf : ∀ rec ∈ recs, recordOK r.metadata.rlen t rec = true)
    (hi : i < recs.length)
    (hdata : r.data = some recs.flatten)
    (hpos : r.record_start_pos = i * (r.metadata.rlen + t)) :
    ((r.read_record dp).2).record_start_pos =
      r.record_start_pos + (r.metadata.rlen + t) ∧
    (2 ≤ recs.length →
      sniffLen recs.flatten (min r.metadata.rlen recs.flatten.length) = some t) := by
  have hlen : ∀ rec ∈ recs, rec.length = r.metadata.rlen + t :=
    fun rec h => (recordOK_spec (hwf rec h)).1
  constructor
  · simp only [FWFReader.read_record, hdata, readRecordCore]
    rw [hpos, wf_advance hrl recs hwf i hi, Nat.succ_mul]
  · intro h2
    have hfl : recs.flatten.length = recs.length * (r.metadata.rlen + t) :=
      flatten_length hlen
    have hge : 2 * (r.metadata.rlen + t) ≤ recs.length * (r.metadata.rlen + t) :=
      Nat.mul_le_mul_right _ h2
    have hrle : r.metadata.rlen ≤ recs.flatten.length := by omega
    rw [Nat.min_eq_left hrle]
    cases recs with
    | nil => simp at hi
    | cons r1 rs =>
      cases rs with
      | nil => simp at h2
      | cons r2 rs2 =>
        have hm1 : r1 ∈ r1 :: r2 :: rs2 := List.mem_cons_self _ _
        have hm2 : r2 ∈ r1 :: r2 :: rs2 :=
          List.mem_cons_of_mem _ (List.mem_cons_self _ _)
        have hl1 : r1.length = r.metadata.rlen + t := hlen r1 hm1
        have hl2 : r2.length = r.metadata.rlen + t := hlen r2 hm2
        have hfst := (recordOK_spec (hwf r2 hm2)).2.2
        cases r2 with
        | nil => simp at hl2; omega
        | cons b2 tl2 =>
          have hb2 : isTerm b2 = false := hfst b2 (by simp)
          have hsplit : ((r1 :: (b2 :: tl2) :: rs2).flatten).drop r.metadata.rlen =
              (r1.drop r.metadata.rlen) ++ b2 :: (tl2 ++ rs2.flatten) := by
            rw [List.flatten_cons, List.drop_append_of_le_length (by omega),
              List.flatten_cons, List.cons_append]
          have := sniffLen_of_split ((r1 :: (b2 :: tl2) :: rs2).flatten)
            r.metadata.rlen (r1.drop r.metadata.rlen) b2 (tl2 ++ rs2.flatten)
            hsplit (recordOK_spec (hwf r1 hm1)).2.1 hb2
          rw [this, List.length_drop, hl1]
          congr 1
          omega

theorem C1_witness :
    ((rC1.read_record dp0).2).record_start_pos =
      rC1.record_start_pos + (rC1.metadata.rlen + 1) ∧
    sniffLen (List.flatten [[97, 98, 10], [99, 100, 10]])
      (min rC1.metadata.rlen (List.flatten [[97, 98, 10], [99, 100, 10]]).length) =
      some 1 :=
  ⟨(C1_read_record_advances dp0 rC1 1 [[97, 98, 10], [99, 100, 10]] 0
      (by decide) (by decide) (by decide) rfl rfl).1,
   (C1_read_record_advances dp0 rC1 1 [[97, 98, 10], [99, 100, 10]] 0
      (by decide) (by decide) (by decide) rfl rfl).2 (by decide)⟩

/-- C2, refuted on the code as written: fileC2 is 8 bytes with record
span rlen + terminator = 5, so it holds exactly one complete record,
yet the full run emits a second row decoded from the 3-byte partial
trailing record (and counts it as a good line), because the refill
guard compares the record counter against the fractional
len(data)/span.  The claim (and the spec) say the sequence must end
after the last complete record with no partial row. -/
theorem C2_partial_record_emitted :
    fullRun dp0 metaC2 false fileC2 5 =
      some ([NextOut.row [Value.vStr "abcd"], NextOut.row [Value.vStr "efg"],
             NextOut.stop], 2, 0) := by
  decide

lemma next_no_refill (dp : String → Option Int) (r : FWFReader) (buf : List Nat)
    (hdata : r.data = some buf) (hnr : needsRefill r = false) :
    r.next dp = processRecord dp r buf := by
  unfold FWFReader.next
  rw [if_neg (by simp [hnr]), hdata]

lemma processRecord_err (dp : String → Option Int) (r : FWFReader) (buf : List Nat)
    (p : Nat)
    (h : (readRecordCore dp r.metadata buf r.record_start_pos).1 = Except.error p) :
    processRecord dp r buf =
      (NextOut.skipped,
       { r with line := r.line + 1, b := r.b + 1,
                record_start_pos := (readRecordCore dp r.metadata buf r.record_start_pos).2,
                bad_lines := r.bad_lines + 1 }) := by
  unfold processRecord
  rw [h]

lemma processRecord_ok (dp : String → Option Int) (r : FWFReader) (buf : List Nat)
    (p : List Value × Nat)
    (h : (readRecordCore dp r.metadata buf r.record_start_pos).1 = Except.ok p) :
    processRecord dp r buf =
      ((if r.rdict then
          NextOut.drow ((r.metadata.columns.map (fun c => c.name)).zip p.1)
        else NextOut.row p.1),
       { r with line := r.line + 1, b := r.b + 1,
                record_start_pos := (readRecordCore dp r.metadata buf r.record_start_pos).2,
                good_lines := r.good_lines + 1 }) := by
  unfold processRecord
  rw [h]

lemma recLoop_err (dp : String → Option Int) (data : List Nat) :
    ∀ (cs : List FWFColumn) (exc : Nat), exc ≤ 3 →
      3 - exc < (cs.filter (failP dp data)).length →
      ∃ col, (cs.filter (failP dp data))[3 - exc]? = some col ∧
        recLoop dp data cs exc = Except.error col.start := by
  intro cs
  induction cs with
  | nil => intro exc hexc hl; simp at hl
  | cons c cs ih =>
    intro exc hexc hl
    by_cases hc : failP dp data c = true
    · have hcoerce : coerce dp c (decodeBytes (pySlice data c.start c.stop)) = none := by
        simpa [failP, fieldStr, Option.isNone_iff_eq_none] using hc
      rw [List.filter_cons_of_pos hc] at hl ⊢
      by_cases hexc3 : exc = 3
      · subst hexc3
        refine ⟨c, by simp, ?_⟩
        simp only [recLoop, hcoerce]
        rw [if_pos (by omega)]
      · have hl2 : 3 - (exc + 1) < (cs.filter (failP dp data)).length := by
          simp only [List.length_cons] at hl
          omega
        obtain ⟨col, hcol, hrec⟩ := ih (exc + 1) (by omega) hl2
        refine ⟨col, ?_, ?_⟩
        · rw [show 3 - exc = (3 - (exc + 1)) + 1 by omega, List.getElem?_cons_succ]
          exact hcol
        · simp only [recLoop, hcoerce]
          rw [if_neg (by omega), hrec]
          rfl
    · have hsome : ∃ v, coerce dp c (decodeBytes (pySlice data c.start c.stop)) = some v := by
        cases hco : coerce dp c (fieldStr data c) with
        | none => exact absurd (by simp [failP, hco]) hc
        | some v => exact ⟨v, by simpa [fieldStr] using hco⟩
      obtain ⟨v, hv⟩ := hsome
      rw [List.filter_cons_of_neg (by simp [hc])] at hl ⊢
      obtain ⟨col, hcol, hrec⟩ := ih exc hexc hl
      refine ⟨col, hcol, ?_⟩
      simp only [recLoop, hv]
      rw [hrec]
      rfl

lemma recLoop_ok (dp : String → Option Int) (data : List Nat) :
    ∀ (cs : List FWFColumn) (exc : Nat),
      exc + (cs.filter (failP dp data)).length ≤ 3 →
      recLoop dp data cs exc =
        Except.ok (cs.map (fallbackVal dp data),
                   exc + (cs.filter (failP dp data)).length) := by
  intro cs
  induction cs with
  | nil => intro exc h; simp [recLoop]
  | cons c cs ih =>
    intro exc h
    by_cases hc : failP dp data c = true
    · have hcoerce : coerce dp c (decodeBytes (pySlice data c.start c.stop)) = none := by
        simpa [failP, fieldStr, Option.isNone_iff_eq_none] using hc
      rw [List.filter_cons_of_pos hc] at h ⊢
      simp only [List.length_cons] at h
      have hrec := ih (exc + 1) (by omega)
      simp only [recLoop, hcoerce]
      rw [if_neg (by omega), hrec]
      have hfb : fallbackVal dp data c =
          Value.vStr (decodeBytes (pySlice data c.start c.stop)) := by
        simp [fallbackVal, fieldStr]
        rw [show coerce dp c (decodeBytes (pySlice data c.start c.stop)) = none
          from hcoerce]
      have harith : exc + 1 + (cs.filter (failP dp data)).length =
          exc + ((cs.filter (failP dp data)).length + 1) := by omega
      simp [Except.map, hfb, List.length_cons, harith]
    · have hsome : ∃ v, coerce dp c (decodeBytes (pySlice data c.start c.stop)) = some v := by
        cases hco : coerce dp c (fieldStr data c) with
        | none => exact absurd (by simp [failP, hco]) hc
        | some v => exact ⟨v, by simpa [fieldStr] using hco⟩
      obtain ⟨v, hv⟩ := hsome
      rw [List.filter_cons_of_neg (by simp [hc])] at h ⊢
      have hrec := ih exc h
      simp only [recLoop, hv]
      rw [hrec]
      have hfb : fallbackVal dp data c = v := by
        simp [fallbackVal, fieldStr]
        rw [show coerce dp c (decodeBytes (pySlice data c.start c.stop)) = some v
          from hv]
      simp [Except.map, hfb]

/-- C3: when more than 3 field coercions fail within one record,
read_record raises FTSParseException carrying the start offset of the
column at which the fourth failure occurs, and next catches it,
increments bad_lines by exactly 1, leaves good_lines unchanged, and
returns None (no row) so that iteration continues. -/
theorem C3_too_many_failures (dp : String → Option Int) (r : FWFReader)
    (buf : List Nat)
    (hdata : r.data = some buf)
    (hnr : needsRefill r = false)
    (hfail : 3 < (r.metadata.columns.filter (failP dp (recSlice r buf))).length) :
    ∃ col r₂,
      (r.metadata.columns.filter (failP dp (recSlice r buf)))[3]? = some col ∧
      (r.read_record dp).1 = Except.error col.start ∧
      r.next dp = (NextOut.skipped, r₂) ∧
      r₂.bad_lines = r.bad_lines + 1 ∧
      r₂.good_lines = r.good_lines := by
  obtain ⟨col, hcol, hrec⟩ :=
    recLoop_err dp (recSlice r buf) r.metadata.columns 0 (by omega)
      (by simpa using hfail)
  have hcore : (readRecordCore dp r.metadata buf r.record_start_pos).1 =
      Except.error col.start := by
    simp only [readRecordCore]
    exact hrec
  refine ⟨col,
    { r with line := r.line + 1, b := r.b + 1,
             record_start_pos := (readRecordCore dp r.metadata buf r.record_start_pos).2,
             bad_lines := r.bad_lines + 1 },
    by simpa using hcol, ?_, ?_, rfl, rfl⟩
  · simp only [FWFReader.read_record, hdata]
    exact hcore
  · rw [next_no_refill dp r buf hdata hnr, processRecord_err dp r buf col.start hcore]

theorem C3_witness :
    ∃ col r₂,
      (rC3.metadata.columns.filter (failP dp0 (recSlice rC3 [120, 120, 120, 120])))[3]? =
        some col ∧
      (rC3.read_record dp0).1 = Except.error col.start ∧
      rC3.next dp0 = (NextOut.skipped, r₂) ∧
      r₂.bad_lines = rC3.bad_lines + 1 ∧
      r₂.good_lines = rC3.good_lines :=
  C3_too_many_failures dp0 rC3 [120, 120, 120, 120] rfl (by decide) (by decide)

/-- C4: when at most 3 field coercions fail within one record, no
failure escapes read_record: it returns a full record in which every
failing field falls back to its raw decoded string, with the
per-record exception counter equal to the number of failures, and next
yields the row (list or dict shaped) counting the line as good. -/
theorem C4_few_failures_absorbed (dp : String → Option Int) (r : FWFReader)
    (buf : List Nat)
    (hdata : r.data = some buf)
    (hnr : needsRefill r = false)
    (hfew : (r.metadata.columns.filter (failP dp (recSlice r buf))).length ≤ 3) :
    (r.read_record dp).1 =
      Except.ok (r.metadata.columns.map (fallbackVal dp (recSlice r buf)),
                 (r.metadata.columns.filter (failP dp (recSlice r buf))).length) ∧
    ∃ r₂,
      r.next dp =
        ((if r.rdict then
            NextOut.drow ((r.metadata.columns.map (fun c => c.name)).zip
              (r.metadata.columns.map (fallbackVal dp (recSlice r buf))))
          else NextOut.row (r.metadata.columns.map (fallbackVal dp (recSlice r buf)))),
         r₂) ∧
      r₂.good_lines = r.good_lines + 1 ∧
      r₂.bad_lines = r.bad_lines := by
  have hrec := recLoop_ok dp (recSlice r buf) r.metadata.columns 0 (by omega)
  have hcore : (readRecordCore dp r.metadata buf r.record_start_pos).1 =
      Except.ok (r.metadata.columns.map (fallbackVal dp (recSlice r buf)),
                 (r.metadata.columns.filter (failP dp (recSlice r buf))).length) := by
    simp only [readRecordCore]
    simpa using hrec
  constructor
  · simp only [FWFReader.read_record, hdata]
    exact hcore
  · refine
      ⟨{ r with line := r.line + 1, b := r.b + 1,
                record_start_pos := (readRecordCore dp r.metadata buf r.record_start_pos).2,
                good_lines := r.good_lines + 1 },
       ?_, rfl, rfl⟩
    rw [next_no_refill dp r buf hdata hnr, processRecord_ok dp r buf _ hcore]

theorem C4_witness :
    (rC4.read_record dp0).1 =
      Except.ok (rC4.metadata.columns.map (fallbackVal dp0 (recSlice rC4 [120, 55])),
                 (rC4.metadata.columns.filter (failP dp0 (recSlice rC4 [120, 55]))).length) ∧
    ∃ r₂,
      rC4.next dp0 =
        ((if rC4.rdict then
            NextOut.drow ((rC4.metadata.columns.map (fun c => c.name)).zip
              (rC4.metadata.columns.map (fallbackVal dp0 (recSlice rC4 [120, 55]))))
          else NextOut.row (rC4.metadata.columns.map (fallbackVal dp0 (recSlice rC4 [120, 55])))),
         r₂) ∧
      r₂.good_lines = rC4.good_lines + 1 ∧
      r₂.bad_lines = rC4.bad_lines :=
  C4_few_failures_absorbed dp0 rC4 [120, 55] rfl (by decide) (by decide)

/-- C5, refuted on the code as written: for an all-whitespace field in
a STRING (CHAR) column, the code appends the raw decoded string (here
a single space), not the stripped string (here empty) that the claim
names.  The NUM and DATE parts of the claim do hold (see the amended
theorem). -/
theorem C5_counterexample :
    pyStrip " " = "" ∧
    coerce dp0 colChar " " = some (Value.vStr " ") ∧
    coerce dp0 colChar " " ≠ some (Value.vStr (pyStrip " ")) := by
  decide

/-- C5 as amended: for a field whose decoded text strips to empty, the
coerced value is null for a NUM column with zero scale and for a DATE
column, and is the raw (unstripped) decoded string for any other
column type. -/
theorem C5_empty_field_amended (dp : String → Option Int) (c : FWFColumn)
    (s : String) (hempty : pyStrip s = "") :
    ((c.type = "NUM" ∧ c.d = 0) → coerce dp c s = some Value.vNull) ∧
    (c.type = "DATE" → coerce dp c s = some Value.vNull) ∧
    (¬(c.type = "NUM" ∧ c.d = 0) → c.type ≠ "DATE" →
      coerce dp c s = some (Value.vStr s)) := by
  refine ⟨?_, ?_, ?_⟩
  · intro hnum
    simp [coerce, hnum.1, hnum.2, hempty]
  · intro hdate
    simp [coerce, hdate, hempty]
  · intro hnum hdate
    simp [coerce, hnum, hdate]

theorem C5_witness :
    coerce dp0 colNum " " = some Value.vNull ∧
    coerce dp0 colDate " " = some Value.vNull ∧
    coerce dp0 colChar " " = some (Value.vStr " ") :=
  ⟨(C5_empty_field_amended dp0 colNum " " (by decide)).1 (by decide),
   (C5_empty_field_amended dp0 colDate " " (by decide)).2.1 (by decide),
   (C5_empty_field_amended dp0 colChar " " (by decide)).2.2 (by decide) (by decide)⟩

/-- C6: on the first open of a reader whose terminator width is still
unknown, the sniff reads the first record_length bytes and counts the
contiguous run of LF or CR bytes that follows; that count becomes the
fixed eof_len for the rest of the file, and once the reader is open a
further open returns immediately, so the sniff runs at most once.
Stated for files on which the sniff loop completes (the run of
terminator bytes is followed by a further byte). -/
theorem C6_sniff_once (r : FWFReader) (fs : List Nat) (k : Nat)
    (hin : r.input = none) (heof : r.eof_len = none)
    (hs : sniffLen fs (min r.metadata.rlen fs.length) = some k) :
    ∃ r₂, r.openR fs = some r₂ ∧
      r₂.eof_len = some k ∧
      k = termRun (fs.drop r.metadata.rlen) ∧
      r.metadata.rlen < fs.length ∧
      (∀ fs₂, r₂.openR fs₂ = some r₂) := by
  have hlt : min r.metadata.rlen fs.length < fs.length := (sniffLen_some hs).1
  have hrlt : r.metadata.rlen < fs.length := by
    rcases Nat.lt_or_ge r.metadata.rlen fs.length with h | h
    · exact h
    · exfalso
      rw [Nat.min_eq_right h] at hlt
      omega
  have hmin : min r.metadata.rlen fs.length = r.metadata.rlen :=
    Nat.min_eq_left (by omega)
  have hk : k = termRun (fs.drop r.metadata.rlen) := by
    have h2 := (sniffLen_some hs).2
    rwa [hmin] at h2
  refine ⟨{ r with eof_len := some k, input := some ⟨fs, 0, false⟩ },
    ?_, rfl, hk, hrlt, ?_⟩
  · unfold FWFReader.openR
    rw [hin, heof]
    simp [hs]
  · intro fs₂
    simp [FWFReader.openR]

theorem C6_witness :
    ∃ r₂, (mkReader metaC2 false).openR fileC2 = some r₂ ∧
      r₂.eof_len = some 1 ∧
      1 = termRun (fileC2.drop (mkReader metaC2 false).metadata.rlen) ∧
      (mkReader metaC2 false).metadata.rlen < fileC2.length ∧
      (∀ fs₂, r₂.openR fs₂ = some r₂) :=
  C6_sniff_once (mkReader metaC2 false) fileC2 1 rfl rfl (by decide)

lemma processRecord_ne_stop (dp : String → Option Int) (r : FWFReader)
    (buf : List Nat) : (processRecord dp r buf).1 ≠ NextOut.stop := by
  unfold processRecord
  cases (readRecordCore dp r.metadata buf r.record_start_pos).1 with
  | ok p =>
    by_cases h : r.rdict = true
    · simp [h]
    · simp [h]
  | error e => simp

lemma next_stop_spec (dp : String → Option Int) (r r₂ : FWFReader)
    (hnext : r.next dp = (NextOut.stop, r₂)) :
    needsRefill r = true ∧
    ∃ h₂, refillRead r = some ([], h₂) ∧
      r₂ = { r with input := some h₂, data := some [] } := by
  unfold FWFReader.next at hnext
  by_cases hnr : needsRefill r = true
  · refine ⟨hnr, ?_⟩
    rw [if_pos hnr] at hnext
    cases hin : r.input with
    | none =>
      rw [hin] at hnext
      simp at hnext
    | some h =>
      cases heof : r.eof_len with
      | none =>
        rw [hin, heof] at hnext
        simp at hnext
      | some t =>
        rw [hin, heof] at hnext
        simp only [] at hnext
        cases hrb : h.readB ((r.metadata.rlen + t) * r.nb) with
        | none =>
          rw [hrb] at hnext
          simp at hnext
        | some bh =>
          rw [hrb] at hnext
          simp only [] at hnext
          by_cases hlen : bh.1.length = 0
          · have hnil : bh.1 = [] := List.length_eq_zero.mp hlen
            rw [if_pos hlen] at hnext
            refine ⟨bh.2, ?_, ?_⟩
            · unfold refillRead
              rw [hin, heof]
              simp only [hrb]
              rw [← hnil]
            · have := (Prod.mk.injEq _ _ _ _ ▸ hnext).2
              rw [← this, hnil]
          · rw [if_neg hlen] at hnext
            exact absurd (congrArg Prod.fst hnext) (processRecord_ne_stop dp _ bh.1)
  · exfalso
    rw [if_neg hnr] at hnext
    cases hd : r.data with
    | none =>
      rw [hd] at hnext
      simp at hnext
    | some buf =>
      rw [hd] at hnext
      exact absurd (congrArg Prod.fst hnext) (processRecord_ne_stop dp r buf)

lemma next_stop_of_empty (dp : String → Option Int) (r : FWFReader)
    (h₂ : Handle) (hnr : needsRefill r = true)
    (hrr : refillRead r = some ([], h₂)) :
    r.next dp = (NextOut.stop, { r with input := some h₂, data := some [] }) := by
  unfold refillRead at hrr
  cases hin : r.input with
  | none =>
    rw [hin] at hrr
    simp at hrr
  | some h =>
    cases heof : r.eof_len with
    | none =>
      rw [hin, heof] at hrr
      simp at hrr
    | some t =>
      rw [hin, heof] at hrr
      simp only [] at hrr
      unfold FWFReader.next
      rw [if_pos hnr, hin, heof]
      simp only [hrr]
      simp

/-- C7: next signals end of sequence (StopIteration) exactly when a
buffer refill is due and the refill read returns zero bytes; this
leaves the line, good_lines and bad_lines counters unchanged. -/
theorem C7_stop_iff_empty_refill (dp : String → Option Int) (r : FWFReader) :
    ((∃ r₂, r.next dp = (NextOut.stop, r₂)) ↔
      (needsRefill r = true ∧ ∃ h₂, refillRead r = some ([], h₂))) ∧
    (∀ r₂, r.next dp = (NextOut.stop, r₂) →
      r₂.line = r.line ∧ r₂.good_lines = r.good_lines ∧
      r₂.bad_lines = r.bad_lines) := by
  constructor
  · constructor
    · rintro ⟨r₂, hnext⟩
      obtain ⟨hnr, h₂, hrr, -⟩ := next_stop_spec dp r r₂ hnext
      exact ⟨hnr, h₂, hrr⟩
    · rintro ⟨hnr, h₂, hrr⟩
      exact ⟨_, next_stop_of_empty dp r h₂ hnr hrr⟩
  · intro r₂ hnext
    obtain ⟨-, h₂, -, hr₂⟩ := next_stop_spec dp r r₂ hnext
    rw [hr₂]
    exact ⟨rfl, rfl, rfl⟩

theorem C7_witness : ∃ r₂, rC7.next dp0 = (NextOut.stop, r₂) :=
  (C7_stop_iff_empty_refill dp0 rC7).1.mpr
    ⟨by decide, ⟨⟨[], 0, false⟩, by decide⟩⟩

/-- C8, refuted on the code as written: close does not mark the reader
exhausted.  On the concrete open reader rC7 sitting at end of file, a
pull before close signals end of sequence (stop), but the same pull
after close raises an I/O error (the read on a closed handle), not the
end-of-sequence signal the claim promises. -/
theorem C8_counterexample :
    (rC7.next dp0).1 = NextOut.stop ∧
    ((rC7.closeR).next dp0).1 = NextOut.ioErr ∧
    NextOut.ioErr ≠ NextOut.stop := by
  decide

/-- C8 as amended: close closes the underlying handle when one is set
(releasing the file resource), but it does not mark the reader
exhausted: a subsequent pull that triggers a refill raises an I/O
error instead of signalling end of sequence.  __exit__ invokes close
unconditionally (whatever the exception information), so a with block
releases the handle on every exit path. -/
theorem C8_close_amended (dp : String → Option Int) (r : FWFReader) (h0 : Handle)
    (hin : r.input = some h0) :
    (r.closeR).input = some { h0 with closed := true } ∧
    (∀ a b c, r.exitR a b c = r.closeR) ∧
    (needsRefill r = true → ((r.closeR).next dp).1 = NextOut.ioErr) := by
  have hcr : r.closeR = { r with input := some { h0 with closed := true } } := by
    unfold FWFReader.closeR
    rw [hin]
  refine ⟨by rw [hcr], fun a b c => rfl, ?_⟩
  intro hnr
  rw [hcr]
  have hnr2 : needsRefill { r with input := some { h0 with closed := true } } = true :=
    hnr
  unfold FWFReader.next
  rw [if_pos hnr2]
  cases heof : r.eof_len with
  | none => simp [heof]
  | some t => simp [heof, Handle.readB]

theorem C8_witness :
    (rC8.closeR).input = some ⟨[97, 98, 99, 100, 10], 5, true⟩ ∧
    rC8.exitR none none none = rC8.closeR ∧
    ((rC8.closeR).next dp0).1 = NextOut.ioErr :=
  ⟨(C8_close_amended dp0 rC8 ⟨[97, 98, 99, 100, 10], 5, false⟩ rfl).1,
   (C8_close_amended dp0 rC8 ⟨[97, 98, 99, 100, 10], 5, false⟩ rfl).2.1 none none none,
   (C8_close_amended dp0 rC8 ⟨[97, 98, 99, 100, 10], 5, false⟩ rfl).2.2 (by decide)⟩

/-- C9: the full read of a file is deterministic in the file bytes and
the layout: constructing a fresh reader, opening it and running it on
the same metadata and the same file content twice yields the same
outcome sequence and the same final good and bad line counters. -/
theorem C9_deterministic (dp : String → Option Int) (m₁ m₂ : FWFMeta) (rd : Bool)
    (fs₁ fs₂ : List Nat) (fuel : Nat) (hm : m₁ = m₂) (hf : fs₁ = fs₂) :
    fullRun dp m₁ rd fs₁ fuel = fullRun dp m₂ rd fs₂ fuel := by
  rw [hm, hf]

theorem C9_witness :
    fullRun dp0 metaC2 false fileC2 5 = fullRun dp0 metaC2 false fileC2 5 :=
  C9_deterministic dp0 metaC2 metaC2 false fileC2 fileC2 5 rfl rfl

/-- C10: open is idempotent on an already-open reader: when the handle
is set it returns at once with the state unchanged, and when the
terminator width is already known the sniff is not re-run: open merely
attaches a fresh handle, leaving eof_len and all counters unchanged
and never failing. -/
theorem C10_open_idempotent (r : FWFReader) (fs : List Nat) :
    (∀ h0, r.input = some h0 → r.openR fs = some r) ∧
    (r.eof_len ≠ none →
      ∃ r₂, r.openR fs = some r₂ ∧ r₂.eof_len = r.eof_len ∧
        r₂.line = r.line ∧ r₂.good_lines = r.good_lines ∧
        r₂.bad_lines = r.bad_lines) := by
  constructor
  · intro h0 hin
    simp [FWFReader.openR, hin]
  · intro heof
    cases hin : r.input with
    | some h0 =>
      exact ⟨r, by simp [FWFReader.openR, hin], rfl, rfl, rfl, rfl⟩
    | none =>
      cases heq : r.eof_len with
      | none => exact absurd heq heof
      | some t =>
        refine ⟨{ r with input := some ⟨fs, 0, false⟩ }, ?_, ?_, rfl, rfl, rfl⟩
        · unfold FWFReader.openR
          rw [hin]
          simp [heq]
        · rw [heq]

theorem C10_witness :
    rC8.openR [1, 2, 3] = some rC8 ∧
    (∃ r₂, rC8.openR [1, 2, 3] = some r₂ ∧ r₂.eof_len = rC8.eof_len ∧
      r₂.line = rC8.line ∧ r₂.good_lines = rC8.good_lines ∧
      r₂.bad_lines = rC8.bad_lines) :=
  ⟨(C10_open_idempotent rC8 [1, 2, 3]).1 ⟨[97, 98, 99, 100, 10], 5, false⟩ rfl,
   (C10_open_idempotent rC8 [1, 2, 3]).2 (by decide)⟩

end Fwf
